import Mathlib

/-!
Verification of the go-spring capture/replay support libraries.

Shallow embedding of:
- `spring-base/knife` (a scoped key/value store carried on a `context.Context`),
- `spring-base/apcu` (a process-local cache with replay-aware key derivation
  and lazy expiry tombstoning),
- the replayer matching engine and the command-line codec (whose
  implementations are not part of the provided sources; they are modelled
  from the specification, as marked on each definition).

Go's `sync.Map` is modelled as an association list (`List (String × α)`),
with first-match lookup; mutation is modelled by explicit state passing.
-/

namespace Knife

/-- Model of `sync.Map.Load`: first binding of `k`, if any. -/
def mapLoad {α : Type} (k : String) (m : List (String × α)) : Option α :=
  match m with
  | [] => none
  | (k0, v0) :: rest => if k0 = k then some v0 else mapLoad k rest

/-- Model of `sync.Map.Store`: overwrite the binding of `k`, or append it. -/
def mapStore {α : Type} (k : String) (v : α) (m : List (String × α)) :
    List (String × α) :=
  match m with
  | [] => [(k, v)]
  | (k0, v0) :: rest =>
      if k0 = k then (k0, v) :: rest else (k0, v0) :: mapStore k v rest

/-- Model of `sync.Map.Delete`. -/
def mapDelete {α : Type} (k : String) (m : List (String × α)) :
    List (String × α) :=
  m.filter (fun e => e.1 ≠ k)

/-- Model of `sync.Map.LoadOrStore`: returns (value, loaded flag, new map). -/
def mapLoadOrStore {α : Type} (k : String) (v : α) (m : List (String × α)) :
    α × Bool × List (String × α) :=
  match mapLoad k m with
  | some v0 => (v0, true, m)
  | none => (v, false, m ++ [(k, v)])

/-- A `context.Context` as `knife` sees it: either it carries a scoped store
(the `*sync.Map` bound under `ctxKey`) or it does not. -/
def Ctx (α : Type) : Type := Option (List (String × α))

/-- `context.Background()`: no store attached. -/
def background {α : Type} : Ctx α := none

/-- `knife.New`: returns the same context with `cached = true` when a store is
already attached, otherwise a derived context with a fresh empty store and
`cached = false`. -/
def new {α : Type} (c : Ctx α) : Ctx α × Bool :=
  match c with
  | some m => (some m, true)
  | none => (some [], false)

/-- `knife.Get`: looks the key up in the attached store; `(nil, false)` when no
store is attached. -/
def get {α : Type} (c : Ctx α) (k : String) : Option α × Bool :=
  match c with
  | some m => (mapLoad k m, (mapLoad k m).isSome)
  | none => (none, false)

/-- `knife.Set`: `LoadOrStore` on the attached store; errors when no store is
attached ("knife uninitialized") or the key is already bound ("duplicate key").
The returned context is the post-state of the shared store. -/
def set {α : Type} (c : Ctx α) (k : String) (v : α) : Option String × Ctx α :=
  match c with
  | none => (some "knife uninitialized", none)
  | some m =>
      match mapLoadOrStore k v m with
      | (_, true, m') => (some ("duplicate key " ++ k), some m')
      | (_, false, m') => (none, some m')

/-- `knife.Delete`: removes the binding when a store is attached. -/
def delete {α : Type} (c : Ctx α) (k : String) : Ctx α :=
  match c with
  | some m => some (mapDelete k m)
  | none => none

/-- The `len(keys) == 0` branch of `knife.Copy`: `Range` over the source store
re-`Store`-ing every binding into the destination store. -/
def copyAll {α : Type} (m : List (String × α)) : List (String × α) :=
  m.foldl (fun acc e => mapStore e.1 e.2 acc) []

/-- The explicit-keys loop of `knife.Copy`: for each requested key present in
the source, `Set` it in the destination; a `Set` error aborts with
`(nil, err)`. -/
def copyKeys {α : Type} (m : List (String × α)) (keys : List String)
    (dest : Ctx α) : Option (Ctx α) × Option String :=
  match keys with
  | [] => (some dest, none)
  | k :: ks =>
      match mapLoad k m with
      | some v =>
          match set dest k v with
          | (some e, _) => (none, some e)
          | (none, dest') => copyKeys m ks dest'
      | none => copyKeys m ks dest

/-- `knife.Copy`: `(nil, nil)` when the source has no store; otherwise copies
into a fresh context derived from `context.Background()`. -/
def copy {α : Type} (src : Ctx α) (keys : List String) :
    Option (Ctx α) × Option String :=
  match src with
  | none => (none, none)
  | some m =>
      let dest := (new (background (α := α))).1
      if keys = [] then
        (some (some (copyAll m)), none)
      else
        copyKeys m keys dest

end Knife

namespace Apcu

/-- A value held by the `apcu` cache, tagged with its Go dynamic type as the
`reflect` package would report it. `str` is a stored `string`; `rval` is a
`reflect.Value` (the form `load` rewrites a stored string into after a
successful JSON unmarshal), carrying its type name and payload; `other` is any
other stored value, carrying its type name and payload. -/
inductive GoVal where
  | str : String → GoVal
  | rval : String → String → GoVal
  | other : String → String → GoVal
deriving DecidableEq, Repr

/-- The Go dynamic type name of a stored value. -/
def GoVal.typeName : GoVal → String
  | .str _ => "string"
  | .rval ty _ => ty
  | .other ty _ => ty

/-- `apcu.cacheItem`: the stored value (`nil` = tombstone) and its expiry.
Time is modelled as `Nat`; `expireAt = 0` models Go's zero `time.Time`, for
which `IsZero()` is true. -/
structure CacheItem where
  source : Option GoVal
  expireAt : Nat
deriving DecidableEq, Repr

/-- The process-wide `cache sync.Map`, keyed by derived key. -/
abbrev Cache := List (String × CacheItem)

/-- Modelled from the spec: `replayer.GetSessionID` (its implementation is not
among the provided sources) returns the session id bound in the current call
context's scoped store, or an error when none is bound. The context is
abstracted to the session id it carries, if any. -/
def getSessionID (ctx : Option String) : String × Option String :=
  match ctx with
  | some sid => (sid, none)
  | none => ("", some "session id not found")

/-- `apcu.getKey`: in replay mode the cache key is the ambient session id
concatenated with the caller's key (`sessionID + key`); a session-id
resolution error is propagated with an empty key; outside replay mode the
caller's key is used unchanged. -/
def getKey (replayMode : Bool) (ctx : Option String) (key : String) :
    String × Option String :=
  if replayMode then
    match getSessionID ctx with
    | (_, some e) => ("", some e)
    | (sid, none) => (sid ++ key, none)
  else
    (key, none)

/-- `apcu.load`: the cache read. `um src ty` models `json.Unmarshal` of the
stored string `src` into a freshly allocated value of type `ty`, returning the
resulting payload on success. `out` is modelled as a valid non-nil pointer to
a value of type `outTy`, so the pointer-validity guard never fires. Returns
`(ok, err, cache')`: expired entries are overwritten with a tombstone item
(`source = nil`, expiry kept); a successful unmarshal rewrites the stored
string into the unmarshalled `reflect.Value`. -/
def load (um : String → String → Option String) (now : Nat) (c : Cache)
    (key : String) (outTy : String) : Bool × Option String × Cache :=
  match Knife.mapLoad key c with
  | none => (false, none, c)
  | some item =>
      match item.source with
      | none => (false, none, c)
      | some src =>
          if item.expireAt ≠ 0 ∧ item.expireAt < now then
            (false, none, Knife.mapStore key ⟨none, item.expireAt⟩ c)
          else
            match src with
            | .str s =>
                match um s outTy with
                | some payload =>
                    (true, none,
                     Knife.mapStore key
                       ⟨some (.rval outTy payload), item.expireAt⟩ c)
                | none =>
                    if outTy = "string" then (true, none, c)
                    else (false, some "json unmarshal error", c)
            | .rval ty _ =>
                if outTy = ty then (true, none, c)
                else (false, some ("type not match " ++ outTy), c)
            | .other ty _ =>
                if outTy = ty then (true, none, c)
                else (false, some ("type not match " ++ outTy), c)

/-- `apcu.Load`: derives the cache key via `getKey` and reads the cache. A key
derivation error is returned as `(false, err)` with the cache untouched. The
record-mode capture hook only emits a recorder action and never changes the
returned values or the cache, so it is not modelled. -/
def Load (replayMode : Bool) (ctx : Option String)
    (um : String → String → Option String) (now : Nat) (c : Cache)
    (key : String) (outTy : String) : Bool × Option String × Cache :=
  match getKey replayMode ctx key with
  | (_, some e) => (false, some e, c)
  | (k, none) => load um now c k outTy

/-- `apcu.Store`: derives the cache key via `getKey` and stores the value with
expiry `now + ttl` when a positive TTL option is given, zero time otherwise.
A key derivation error is returned with the cache untouched. -/
def Store (replayMode : Bool) (ctx : Option String) (now ttl : Nat)
    (c : Cache) (key : String) (val : GoVal) : Option String × Cache :=
  let expireAt := if ttl > 0 then now + ttl else 0
  match getKey replayMode ctx key with
  | (_, some e) => (some e, c)
  | (k, none) => (none, Knife.mapStore k ⟨some val, expireAt⟩ c)

/-- `apcu.Delete`: derives the cache key via `getKey`, discarding any error
(`key, _ = getKey(ctx, key)`), and deletes the derived key — which is the
empty string whenever key derivation failed. -/
def Delete (replayMode : Bool) (ctx : Option String) (c : Cache)
    (key : String) : Cache :=
  Knife.mapDelete (getKey replayMode ctx key).1 c

end Apcu

namespace Replayer

/-- Modelled from the spec: an `Action` as the replay matching engine sees it —
one recorded request/response exchange with its protocol name, derived label,
timestamp, payload texts, and the per-replay consumption marker (the
implementation of the `fastdev`/`replayer` packages is not among the provided
sources). -/
structure RAction where
  protocol : String
  label : String
  timestamp : Nat
  request : String
  response : String
  consumed : Bool
deriving DecidableEq, Repr

/-- Modelled from the spec: the protocol plugin capabilities the matching
engine uses — `ShouldDiff`, `GetLabel`, and `FlatRequest` (flatten output is
the spec's ordered list of key/value pairs). -/
structure Plugin where
  shouldDiff : Bool
  getLabel : String → String
  flatRequest : String → List (String × String)

/-- Modelled from the spec: whether a stored action is a candidate for a
`ReplayAction(ctx, proto, req)` call — same protocol, same label as
`GetLabel(req)`, and, when the plugin diffs, equal flattened requests. The
consumption flag is checked separately during selection. -/
def isCandidate (pl : Plugin) (proto req : String) (a : RAction) : Bool :=
  a.protocol == proto && a.label == pl.getLabel req &&
    (!pl.shouldDiff || pl.flatRequest req == pl.flatRequest a.request)

/-- Marks an action's consumption flag, the atomic claim of a matched
action. -/
def markConsumed (a : RAction) : RAction :=
  { a with consumed := true }

/-- Modelled from the spec: candidate selection — among the unconsumed actions
satisfying `p`, pick the one with the smallest timestamp (the earliest stored
on ties), returning it together with the stored list in which exactly that
occurrence is marked consumed. -/
def replayPick (p : RAction → Bool) : List RAction → Option (RAction × List RAction)
  | [] => none
  | a :: rest =>
      if p a && !a.consumed then
        match replayPick p rest with
        | some (b, rest2) =>
            if b.timestamp < a.timestamp then some (b, a :: rest2)
            else some (a, markConsumed a :: rest)
        | none => some (a, markConsumed a :: rest)
      else
        match replayPick p rest with
        | some (b, rest2) => some (b, a :: rest2)
        | none => none

/-- Modelled from the spec: `replayer.ReplayAction` restricted to one stored
session's action list: selects the smallest-timestamp unconsumed matching
action, marks it consumed, and returns it; with no candidate left it fails
NotFound ("replay action not found"). -/
def replayActionOnce (pl : Plugin) (proto req : String) (l : List RAction) :
    Except String (RAction × List RAction) :=
  match replayPick (isCandidate pl proto req) l with
  | some (a, l2) => .ok (a, l2)
  | none => .error "replay action not found"

/-- Iterates `replayActionOnce` up to `n` times, collecting the delivered
actions in call order together with the final stored state; iteration stops at
the first NotFound. -/
def replayRun (pl : Plugin) (proto req : String) :
    Nat → List RAction → List RAction × List RAction
  | 0, s => ([], s)
  | n + 1, s =>
      match replayActionOnce pl proto req s with
      | .error _ => ([], s)
      | .ok (a, s2) =>
          let r := replayRun pl proto req n s2
          (a :: r.1, r.2)

end Replayer

namespace Cast

/-- Modelled from the spec: the codec carries raw byte strings; a byte is
`Fin 256`. -/
abbrev Byte := Fin 256

/-- The value separator (space) of the command-line form. -/
def sepB : Byte := ⟨32, by decide⟩

/-- The escape character (backslash). -/
def escB : Byte := ⟨92, by decide⟩

/-- The quoting character (double quote). -/
def quoteB : Byte := ⟨34, by decide⟩

/-- The marker following the escape character that encodes an empty value,
distinguishing an encoded empty element from an empty command line. -/
def emptyMarkB : Byte := ⟨122, by decide⟩

/-- Modelled from the spec: the bytes a value must escape — any occurrence of
the separator, the quoting character, the escape character itself, or a
non-printable byte. -/
def special (b : Byte) : Bool :=
  b = sepB || b = escB || b = quoteB ||
    decide (b.val < 32) || decide (126 < b.val)

/-- The lower-case hex digit for `n % 16`. -/
def hexDigit (n : Nat) : Byte :=
  ⟨if n % 16 < 10 then 48 + n % 16 else 87 + n % 16, by split <;> omega⟩

/-- The numeric value of a hex digit byte. -/
def unhex (b : Byte) : Nat :=
  if b.val ≤ 57 then b.val - 48 else b.val - 87

/-- Whether a byte is a lower-case hex digit. -/
def isHexDigit (b : Byte) : Bool :=
  (decide (48 ≤ b.val) && decide (b.val ≤ 57)) ||
    (decide (97 ≤ b.val) && decide (b.val ≤ 102))

/-- Reassembles a byte from two hex digit bytes. -/
def byteOfHex (h l : Byte) : Byte :=
  ⟨(unhex h % 16) * 16 + unhex l % 16, by omega⟩

/-- Modelled from the spec: the reversible escape of one byte — special bytes
become the escape character followed by two hex digits, all others stand for
themselves. -/
def escByte (b : Byte) : List Byte :=
  if special b then [escB, hexDigit (b.val / 16), hexDigit (b.val % 16)]
  else [b]

/-- Modelled from the spec: one encoded value — an empty value is encoded as
the escape character followed by the empty marker, a non-empty value as its
bytes escaped. -/
def encodeElem (v : List Byte) : List Byte :=
  if v = [] then [escB, emptyMarkB] else v.flatMap escByte

/-- Decodes the escaped bytes of one value; a malformed escape sequence or a
raw special byte is a parse error. -/
def decodeElemAux : List Byte → Option (List Byte)
  | [] => some []
  | b :: rest =>
      if b = escB then
        match rest with
        | h :: l :: rest2 =>
            if isHexDigit h && isHexDigit l then
              (decodeElemAux rest2).map (fun t => byteOfHex h l :: t)
            else none
        | _ => none
      else
        if special b then none
        else (decodeElemAux rest).map (fun t => b :: t)

/-- Decodes one encoded value. -/
def decodeElem (l : List Byte) : Option (List Byte) :=
  if l = [escB, emptyMarkB] then some [] else decodeElemAux l

/-- Joins encoded values with the separator (`strings.Join` shape). -/
def joinSep : List (List Byte) → List Byte
  | [] => []
  | [x] => x
  | x :: xs => x ++ sepB :: joinSep xs

/-- Splits a command line at each separator byte. -/
def splitSep : List Byte → List (List Byte)
  | [] => [[]]
  | b :: rest =>
      if b = sepB then [] :: splitSep rest
      else
        match splitSep rest with
        | r :: rs => (b :: r) :: rs
        | [] => [[b]]

/-- Modelled from the spec: `cast.ToCommandLine` — encodes each value and
joins them with the separator. -/
def ToCommandLine (v : List (List Byte)) : List Byte :=
  joinSep (v.map encodeElem)

/-- Decodes every field of a split command line; any field failing to decode
is a parse error. -/
def decodeAll : List (List Byte) → Option (List (List Byte))
  | [] => some []
  | x :: xs =>
      match decodeElem x, decodeAll xs with
      | some v, some vs => some (v :: vs)
      | _, _ => none

/-- Modelled from the spec: `cast.ParseCommandLine` — empty text is the empty
list; otherwise the text is split at separators and each field decoded. -/
def ParseCommandLine (t : List Byte) : Option (List (List Byte)) :=
  if t = [] then some [] else decodeAll (splitSep t)

end Cast

namespace Knife

theorem mapLoad_append {α : Type} (k : String) (m l : List (String × α)) :
    mapLoad k (m ++ l) = ((mapLoad k m).orElse (fun _ => mapLoad k l)) := by
  induction m with
  | nil => simp [mapLoad, Option.orElse]
  | cons e rest ih =>
      by_cases h : e.1 = k
      · simp [mapLoad, h, Option.orElse]
      · simp [mapLoad, h, ih]

theorem mapLoad_mapStore_self {α : Type} (k : String) (v : α)
    (m : List (String × α)) : mapLoad k (mapStore k v m) = some v := by
  induction m with
  | nil => simp [mapLoad, mapStore]
  | cons e rest ih =>
      by_cases h : e.1 = k
      · simp [mapLoad, mapStore, h]
      · simp [mapLoad, mapStore, h, ih]

theorem mapLoad_mapStore_ne {α : Type} (k1 k2 : String) (v : α)
    (m : List (String × α)) (h : k1 ≠ k2) :
    mapLoad k2 (mapStore k1 v m) = mapLoad k2 m := by
  induction m with
  | nil => simp [mapLoad, mapStore, h]
  | cons e rest ih =>
      by_cases h1 : e.1 = k1
      · simp [mapLoad, mapStore, h1, h]
      · by_cases h2 : e.1 = k2
        · simp [mapLoad, mapStore, h1, h2, Ne.symm h]
        · simp [mapLoad, mapStore, h1, h2, ih]

theorem mapLoad_mapDelete_self {α : Type} (k : String)
    (m : List (String × α)) : mapLoad k (mapDelete k m) = none := by
  induction m with
  | nil => simp [mapLoad, mapDelete]
  | cons e rest ih =>
      by_cases h : e.1 = k
      · simpa [mapDelete, h] using ih
      · simpa [mapDelete, mapLoad, h] using ih

theorem mapLoad_mapDelete_ne {α : Type} (k1 k2 : String)
    (m : List (String × α)) (h : k1 ≠ k2) :
    mapLoad k2 (mapDelete k1 m) = mapLoad k2 m := by
  induction m with
  | nil => simp [mapLoad, mapDelete]
  | cons e rest ih =>
      by_cases h1 : e.1 = k1
      · have h2 : e.1 ≠ k2 := fun he => h (h1 ▸ he)
        simpa [mapDelete, mapLoad, List.filter_cons, h1, h2, h] using ih
      · by_cases h2 : e.1 = k2
        · simp [mapDelete, mapLoad, List.filter_cons, h1, h2, Ne.symm h]
        · simpa [mapDelete, mapLoad, List.filter_cons, h1, h2] using ih

theorem string_append_right_cancel (s1 s2 k : String)
    (h : s1 ++ k = s2 ++ k) : s1 = s2 := by
  have hd : s1.data ++ k.data = s2.data ++ k.data := by
    have := congrArg String.data h
    simpa using this
  have hdata : s1.data = s2.data := List.append_cancel_right hd
  cases s1
  cases s2
  exact congrArg String.mk hdata

theorem set_ok_mapLoad {α : Type} (m : List (String × α)) (k : String) (v : α)
    (c' : Ctx α) (h : set (some m) k v = (none, c')) :
    c' = some (m ++ [(k, v)]) ∧ mapLoad k m = none := by
  cases hl : mapLoad k m with
  | some v0 => simp [set, mapLoadOrStore, hl] at h
  | none =>
      simp [set, mapLoadOrStore, hl] at h
      exact ⟨h.symm, rfl⟩

theorem copyKeys_spec {α : Type} (m : List (String × α)) (keys : List String)
    (d0 : List (String × α)) (hnd : keys.Nodup)
    (hdisj : ∀ k ∈ keys, mapLoad k d0 = none) :
    ∃ d, copyKeys m keys (some d0) = (some (some d), none) ∧
      ∀ k, mapLoad k d =
        if k ∈ keys ∧ (mapLoad k m).isSome then mapLoad k m
        else mapLoad k d0 := by
  induction keys generalizing d0 with
  | nil =>
      refine ⟨d0, rfl, fun k => ?_⟩
      simp
  | cons k0 ks ih =>
      have hk0 : k0 ∉ ks := (List.nodup_cons.mp hnd).1
      have hnd' : ks.Nodup := (List.nodup_cons.mp hnd).2
      have hd0 : mapLoad k0 d0 = none := hdisj k0 (List.mem_cons_self k0 ks)
      cases hm : mapLoad k0 m with
      | none =>
          obtain ⟨d, hrun, hform⟩ :=
            ih d0 hnd' (fun k hk => hdisj k (List.mem_cons_of_mem _ hk))
          refine ⟨d, ?_, fun k => ?_⟩
          · simpa [copyKeys, hm] using hrun
          · rw [hform k]
            by_cases hkk : k = k0
            · subst hkk
              simp [hk0, hm]
            · simp [List.mem_cons, hkk]
      | some v =>
          have hset : set (some d0) k0 v = (none, some (d0 ++ [(k0, v)])) := by
            simp [set, mapLoadOrStore, hd0]
          have hdisj' : ∀ k ∈ ks, mapLoad k (d0 ++ [(k0, v)]) = none := by
            intro k hk
            have hne : k0 ≠ k := fun he => hk0 (he ▸ hk)
            rw [mapLoad_append, hdisj k (List.mem_cons_of_mem _ hk)]
            simp [mapLoad, hne, Option.orElse]
          obtain ⟨d, hrun, hform⟩ := ih (d0 ++ [(k0, v)]) hnd' hdisj'
          refine ⟨d, ?_, fun k => ?_⟩
          · simpa [copyKeys, hm, hset] using hrun
          · rw [hform k]
            by_cases hkk : k = k0
            · subst hkk
              rw [mapLoad_append, hd0]
              simp [mapLoad, hk0, hm, Option.orElse]
            · have hne : k0 ≠ k := fun he => hkk he.symm
              rw [mapLoad_append]
              simp only [mapLoad, hne, if_false]
              have horelse :
                  ((mapLoad k d0).orElse (fun _ => (none : Option α))) =
                    mapLoad k d0 := by
                cases mapLoad k d0 <;> simp [Option.orElse]
              rw [horelse]
              simp [List.mem_cons, hkk]

end Knife

namespace Replayer

theorem replayPick_mem (p : RAction → Bool) (l : List RAction) (b : RAction)
    (l2 : List RAction) (h : replayPick p l = some (b, l2)) : b ∈ l := by
  induction l generalizing b l2 with
  | nil => simp [replayPick] at h
  | cons a rest ih =>
      by_cases hc : (p a && !a.consumed) = true
      · cases hrest : replayPick p rest with
        | none =>
            simp [replayPick, hc, hrest] at h
            simp [h.1]
        | some br =>
            obtain ⟨b0, r0⟩ := br
            by_cases ht : b0.timestamp < a.timestamp
            · simp [replayPick, hc, hrest, ht] at h
              obtain ⟨h1, h2⟩ := h
              subst h1
              exact List.mem_cons_of_mem _ (ih _ _ hrest)
            · simp [replayPick, hc, hrest, ht] at h
              simp [h.1]
      · cases hrest : replayPick p rest with
        | none => simp [replayPick, hc, hrest] at h
        | some br =>
            obtain ⟨b0, r0⟩ := br
            simp [replayPick, hc, hrest] at h
            obtain ⟨h1, h2⟩ := h
            subst h1
            exact List.mem_cons_of_mem _ (ih _ _ hrest)

theorem replayPick_skip_consumed (p : RAction → Bool) (pre l : List RAction)
    (hpre : ∀ x ∈ pre, x.consumed = true) :
    replayPick p (pre ++ l) =
      (replayPick p l).map (fun r => (r.1, pre ++ r.2)) := by
  induction pre with
  | nil => cases hx : replayPick p l <;> simp [hx]
  | cons a pre2 ih =>
      have ha : a.consumed = true := hpre a (List.mem_cons_self a pre2)
      have hcond : (p a && !a.consumed) = false := by simp [ha]
      have ih2 := ih (fun x hx => hpre x (List.mem_cons_of_mem _ hx))
      cases hx : replayPick p l with
      | none =>
          rw [hx] at ih2
          simp [replayPick, hcond, ih2]
      | some br =>
          rw [hx] at ih2
          simp [replayPick, hcond, ih2]

theorem replayPick_fresh_sorted (p : RAction → Bool) (a : RAction)
    (l : List RAction)
    (hfresh : ∀ x ∈ a :: l, p x = true ∧ x.consumed = false)
    (hsorted : (a :: l).Pairwise (fun x y => x.timestamp < y.timestamp)) :
    replayPick p (a :: l) = some (a, markConsumed a :: l) := by
  have ha := hfresh a (List.mem_cons_self a l)
  have hcond : (p a && !a.consumed) = true := by simp [ha.1, ha.2]
  cases hrest : replayPick p l with
  | none => simp [replayPick, hcond, hrest]
  | some br =>
      obtain ⟨b, r⟩ := br
      have hb : b ∈ l := replayPick_mem p l b r hrest
      have hts : a.timestamp < b.timestamp :=
        (List.pairwise_cons.mp hsorted).1 b hb
      simp only [replayPick, hcond, hrest, if_true]
      rw [if_neg (by omega)]

theorem replayRun_spec (pl : Plugin) (proto req : String)
    (l pre : List RAction)
    (hpre : ∀ x ∈ pre, x.consumed = true)
    (hfresh : ∀ x ∈ l, isCandidate pl proto req x = true ∧ x.consumed = false)
    (hsorted : l.Pairwise (fun x y => x.timestamp < y.timestamp)) :
    replayRun pl proto req l.length (pre ++ l) =
      (l, pre ++ l.map markConsumed) := by
  induction l generalizing pre with
  | nil => simp [replayRun]
  | cons a rest ih =>
      have hpick :
          replayPick (isCandidate pl proto req) (pre ++ a :: rest) =
            some (a, pre ++ markConsumed a :: rest) := by
        rw [replayPick_skip_consumed _ _ _ hpre,
          replayPick_fresh_sorted _ _ _ hfresh hsorted]
        rfl
      have hstep :
          replayActionOnce pl proto req (pre ++ a :: rest) =
            .ok (a, pre ++ markConsumed a :: rest) := by
        simp [replayActionOnce, hpick]
      have hre : pre ++ markConsumed a :: rest =
          (pre ++ [markConsumed a]) ++ rest := by
        simp
      have hpre2 : ∀ x ∈ pre ++ [markConsumed a], x.consumed = true := by
        intro x hx
        rcases List.mem_append.mp hx with hx | hx
        · exact hpre x hx
        · simp at hx
          subst hx
          rfl
      have hrest2 : ∀ x ∈ rest,
          isCandidate pl proto req x = true ∧ x.consumed = false :=
        fun x hx => hfresh x (List.mem_cons_of_mem _ hx)
      have hsorted2 : rest.Pairwise (fun x y => x.timestamp < y.timestamp) :=
        (List.pairwise_cons.mp hsorted).2
      have hihx := ih (pre ++ [markConsumed a]) hpre2 hrest2 hsorted2
      simp only [List.length_cons, replayRun, hstep, hre, hihx]
      simp

end Replayer

/-- C1: for a stored session whose N actions all match one request (identical
protocol and label, and — under a diffing plugin — equal flattened requests),
with strictly ascending timestamps and all initially unconsumed, N sequential
`ReplayAction` calls deliver exactly those N actions in their stored ascending
timestamp order, marking each consumed so none is delivered twice, and the
(N+1)-th call fails NotFound. -/
theorem C1_replay_in_order_at_most_once (pl : Replayer.Plugin)
    (proto req : String) (l : List Replayer.RAction)
    (hfresh : ∀ x ∈ l,
      Replayer.isCandidate pl proto req x = true ∧ x.consumed = false)
    (hsorted : l.Pairwise (fun x y => x.timestamp < y.timestamp)) :
    Replayer.replayRun pl proto req l.length l =
      (l, l.map Replayer.markConsumed) ∧
    Replayer.replayActionOnce pl proto req (l.map Replayer.markConsumed) =
      .error "replay action not found" := by
  constructor
  · simpa using Replayer.replayRun_spec pl proto req l [] (by simp)
      hfresh hsorted
  · have hall : ∀ x ∈ l.map Replayer.markConsumed, x.consumed = true := by
      intro x hx
      obtain ⟨y, _, hy⟩ := List.mem_map.mp hx
      subst hy
      rfl
    have := Replayer.replayPick_skip_consumed
      (Replayer.isCandidate pl proto req) (l.map Replayer.markConsumed) [] hall
    simp only [List.append_nil] at this
    simp [Replayer.replayActionOnce, this, Replayer.replayPick]

/-- Witness for C1 at a concrete two-action session. -/
theorem C1_replay_in_order_at_most_once_witness :
    (∀ x ∈ [(⟨"REDIS", "SET", 1, "SET a 1", "r1", false⟩ : Replayer.RAction),
            (⟨"REDIS", "SET", 2, "SET a 1", "r2", false⟩ : Replayer.RAction)],
      Replayer.isCandidate ⟨false, fun s => s, fun _ => []⟩ "REDIS" "SET" x
        = true ∧ x.consumed = false) ∧
    ([(⟨"REDIS", "SET", 1, "SET a 1", "r1", false⟩ : Replayer.RAction),
      (⟨"REDIS", "SET", 2, "SET a 1", "r2", false⟩ : Replayer.RAction)].Pairwise
        (fun x y => x.timestamp < y.timestamp)) ∧
    (Replayer.replayRun ⟨false, fun s => s, fun _ => []⟩ "REDIS" "SET" 2
        [⟨"REDIS", "SET", 1, "SET a 1", "r1", false⟩,
         ⟨"REDIS", "SET", 2, "SET a 1", "r2", false⟩] =
      ([⟨"REDIS", "SET", 1, "SET a 1", "r1", false⟩,
        ⟨"REDIS", "SET", 2, "SET a 1", "r2", false⟩],
       [⟨"REDIS", "SET", 1, "SET a 1", "r1", true⟩,
        ⟨"REDIS", "SET", 2, "SET a 1", "r2", true⟩]) ∧
     Replayer.replayActionOnce ⟨false, fun s => s, fun _ => []⟩ "REDIS" "SET"
        [⟨"REDIS", "SET", 1, "SET a 1", "r1", true⟩,
         ⟨"REDIS", "SET", 2, "SET a 1", "r2", true⟩] =
      .error "replay action not found") := by
  refine ⟨by decide, by decide, ?_⟩
  have h := C1_replay_in_order_at_most_once ⟨false, fun s => s, fun _ => []⟩
    "REDIS" "SET"
    [⟨"REDIS", "SET", 1, "SET a 1", "r1", false⟩,
     ⟨"REDIS", "SET", 2, "SET a 1", "r2", false⟩]
    (by decide) (by decide)
  simpa [Replayer.markConsumed] using h

/-- C3: on a context with an attached scoped store, `knife.Set` for a key that
is already bound returns a non-nil error ("duplicate key"), leaves the store
unchanged, and the previously stored value for that key is still returned by
`knife.Get`: `Set` never overwrites an existing binding in the same scope. -/
theorem C3_knife_set_duplicate_rejected {α : Type} (m : List (String × α))
    (k : String) (v0 v : α) (h : Knife.mapLoad k m = some v0) :
    (Knife.set (some m) k v).1 = some ("duplicate key " ++ k) ∧
    (Knife.set (some m) k v).2 = some m ∧
    Knife.get (Knife.set (some m) k v).2 k = (some v0, true) := by
  refine ⟨?_, ?_, ?_⟩ <;>
    simp [Knife.set, Knife.mapLoadOrStore, Knife.get, h]

/-- Witness for C3 at a concrete store. -/
theorem C3_knife_set_duplicate_rejected_witness :
    Knife.mapLoad "a" [("a", 1)] = some 1 ∧
    ((Knife.set (some [("a", 1)]) "a" 2).1 = some ("duplicate key " ++ "a") ∧
     (Knife.set (some [("a", 1)]) "a" 2).2 = some [("a", 1)] ∧
     Knife.get (Knife.set (some [("a", 1)]) "a" 2).2 "a" = (some 1, true)) :=
  ⟨by decide, C3_knife_set_duplicate_rejected [("a", 1)] "a" 1 2 (by decide)⟩

/-- C7: `knife.New` is attach-once: on a context already carrying a store it
returns that same context with `cached = true`; on a context without one it
returns a context carrying a fresh empty store with `cached = false`; applying
`New` a second time returns the first result unchanged with `cached = true`. -/
theorem C7_knife_new_attach_once {α : Type} (c : Knife.Ctx α) :
    (∀ m, c = some m → Knife.new c = (c, true)) ∧
    (c = none → Knife.new c = (some [], false)) ∧
    Knife.new (Knife.new c).1 = ((Knife.new c).1, true) := by
  cases c <;> simp [Knife.new]

/-- Witness for C7 at concrete contexts. -/
theorem C7_knife_new_attach_once_witness :
    Knife.new (some [("a", 1)] : Knife.Ctx Nat) = (some [("a", 1)], true) ∧
    Knife.new (none : Knife.Ctx Nat) = (some [], false) :=
  ⟨(C7_knife_new_attach_once (some [("a", 1)])).1 [("a", 1)] rfl,
   (C7_knife_new_attach_once none).2.1 rfl⟩

/-- C8: on a context with an attached store, a successful `knife.Set` makes
`knife.Get` return `(val, true)` for that key; on a context without a store,
`Get` returns `(nil, false)` and `Set` returns the non-nil
"knife uninitialized" error. -/
theorem C8_knife_get_set_consistency {α : Type} (k : String) (v : α) :
    (∀ (m : List (String × α)) (c' : Knife.Ctx α),
        Knife.set (some m) k v = (none, c') →
        Knife.get c' k = (some v, true)) ∧
    Knife.get (none : Knife.Ctx α) k = (none, false) ∧
    (Knife.set (none : Knife.Ctx α) k v).1 = some "knife uninitialized" := by
  refine ⟨fun m c' h => ?_, rfl, rfl⟩
  obtain ⟨hc', hnone⟩ := Knife.set_ok_mapLoad m k v c' h
  subst hc'
  simp [Knife.get, Knife.mapLoad_append, hnone, Knife.mapLoad, Option.orElse]

/-- Witness for C8 at a concrete store and key. -/
theorem C8_knife_get_set_consistency_witness :
    Knife.set (some [("b", 2)]) "a" (1 : Nat) = (none, some [("b", 2), ("a", 1)]) ∧
    Knife.get (some [("b", 2), ("a", 1)]) "a" = (some 1, true) :=
  ⟨by simp [Knife.set, Knife.mapLoadOrStore, Knife.mapLoad],
   (C8_knife_get_set_consistency "a" 1).1 [("b", 2)]
     (some [("b", 2), ("a", 1)])
     (by simp [Knife.set, Knife.mapLoadOrStore, Knife.mapLoad])⟩

/-- C9: `knife.Copy` on a source context with no attached store returns a nil
context and a nil error; on a source with a store and an explicit non-empty,
duplicate-free key list, it returns a fresh context (rooted at
`context.Background`) whose store binds exactly the requested keys that are
present in the source, each to its source value. -/
theorem C9_knife_copy_spec {α : Type} (keys : List String) (hne : keys ≠ [])
    (hnd : keys.Nodup) (m : List (String × α)) :
    Knife.copy (none : Knife.Ctx α) keys = (none, none) ∧
    ∃ d, Knife.copy (some m) keys = (some (some d), none) ∧
      ∀ k, Knife.mapLoad k d =
        if k ∈ keys then Knife.mapLoad k m else none := by
  refine ⟨rfl, ?_⟩
  obtain ⟨d, hrun, hform⟩ :=
    Knife.copyKeys_spec m keys [] hnd (fun k _ => rfl)
  refine ⟨d, ?_, fun k => ?_⟩
  · simpa [Knife.copy, Knife.new, Knife.background, hne] using hrun
  · rw [hform k]
    by_cases hk : k ∈ keys
    · cases hm : Knife.mapLoad k m with
      | none => simp [hk, hm, Knife.mapLoad]
      | some v => simp [hk, hm]
    · simp [hk, Knife.mapLoad]

/-- Witness for C9 at a concrete source store and key list. -/
theorem C9_knife_copy_spec_witness :
    (["a"] ≠ ([] : List String)) ∧ (["a"] : List String).Nodup ∧
    (Knife.copy (none : Knife.Ctx Nat) ["a"] = (none, none) ∧
     ∃ d, Knife.copy (some [("a", 1), ("b", 2)]) ["a"] = (some (some d), none) ∧
       ∀ k, Knife.mapLoad k d =
         if k ∈ ["a"] then Knife.mapLoad k [("a", 1), ("b", 2)] else none) :=
  ⟨by decide, by decide,
   C9_knife_copy_spec ["a"] (by decide) (by decide) [("a", 1), ("b", 2)]⟩

/-- C4: in replay mode with a session id bound, `apcu.getKey` derives the
cache key `sessionID + key`, and outside replay mode it returns the key
unchanged; consequently what `apcu.Store` writes under one session id is
invisible to an `apcu.Load` of the same key under a different session id. -/
theorem C4_apcu_session_key_isolation
    (sid1 sid2 key outTy : String) (ctx : Option String)
    (um : String → String → Option String) (now ttl tnow : Nat)
    (c : Apcu.Cache) (val : Apcu.GoVal)
    (hne : sid1 ≠ sid2)
    (habsent : Knife.mapLoad (sid2 ++ key) c = none) :
    Apcu.getKey true (some sid1) key = (sid1 ++ key, none) ∧
    Apcu.getKey false ctx key = (key, none) ∧
    (Apcu.Load true (some sid2) um tnow
        (Apcu.Store true (some sid1) now ttl c key val).2 key outTy).1 = false ∧
    (Apcu.Load true (some sid2) um tnow
        (Apcu.Store true (some sid1) now ttl c key val).2 key outTy).2.1 = none := by
  have hkey : sid1 ++ key ≠ sid2 ++ key := fun h =>
    hne (Knife.string_append_right_cancel sid1 sid2 key h)
  have hstore :
      (Apcu.Store true (some sid1) now ttl c key val).2 =
        Knife.mapStore (sid1 ++ key)
          ⟨some val, if ttl > 0 then now + ttl else 0⟩ c := by
    simp [Apcu.Store, Apcu.getKey, Apcu.getSessionID]
  have hload :
      Knife.mapLoad (sid2 ++ key)
        (Apcu.Store true (some sid1) now ttl c key val).2 = none := by
    rw [hstore, Knife.mapLoad_mapStore_ne _ _ _ _ hkey, habsent]
  refine ⟨rfl, rfl, ?_, ?_⟩ <;>
    simp [Apcu.Load, Apcu.getKey, Apcu.getSessionID, Apcu.load, hload]

/-- Witness for C4 at concrete session ids and an empty cache. -/
theorem C4_apcu_session_key_isolation_witness :
    ("s1" : String) ≠ "s2" ∧
    Knife.mapLoad ("s2" ++ "k") ([] : Apcu.Cache) = none ∧
    (Apcu.getKey true (some "s1") "k" = ("s1" ++ "k", none) ∧
     Apcu.getKey false none "k" = ("k", none) ∧
     (Apcu.Load true (some "s2") (fun _ _ => none) 0
        (Apcu.Store true (some "s1") 0 0 [] "k" (Apcu.GoVal.str "v")).2
        "k" "string").1 = false ∧
     (Apcu.Load true (some "s2") (fun _ _ => none) 0
        (Apcu.Store true (some "s1") 0 0 [] "k" (Apcu.GoVal.str "v")).2
        "k" "string").2.1 = none) :=
  ⟨by decide, by decide,
   C4_apcu_session_key_isolation "s1" "s2" "k" "string" none
     (fun _ _ => none) 0 0 0 [] (Apcu.GoVal.str "v")
     (by decide) (by decide)⟩

/-- C5: a cache entry with a non-zero expiry in the past makes `apcu.Load`
return `(false, nil)` and replace the entry with a tombstone: the key stays in
the cache, mapped to an item with `source = nil` and the expiry retained; a
subsequent `Load` of the key (at any time, for any target type) also returns
`(false, nil)` and leaves the cache unchanged. -/
theorem C5_apcu_expired_entry_tombstoned
    (um um2 : String → String → Option String) (now now2 : Nat)
    (c : Apcu.Cache) (key outTy outTy2 : String) (item : Apcu.CacheItem)
    (src : Apcu.GoVal)
    (hit : Knife.mapLoad key c = some item)
    (hsrc : item.source = some src)
    (hnz : item.expireAt ≠ 0) (hpast : item.expireAt < now) :
    Apcu.Load false none um now c key outTy =
      (false, none, Knife.mapStore key ⟨none, item.expireAt⟩ c) ∧
    Knife.mapLoad key (Knife.mapStore key ⟨none, item.expireAt⟩ c) =
      some ⟨none, item.expireAt⟩ ∧
    Apcu.Load false none um2 now2
        (Knife.mapStore key ⟨none, item.expireAt⟩ c) key outTy2 =
      (false, none, Knife.mapStore key ⟨none, item.expireAt⟩ c) := by
  refine ⟨?_, Knife.mapLoad_mapStore_self _ _ _, ?_⟩
  · simp [Apcu.Load, Apcu.getKey, Apcu.load, hit, hsrc, hnz, hpast]
  · simp [Apcu.Load, Apcu.getKey, Apcu.load, Knife.mapLoad_mapStore_self]

/-- Witness for C5 at a concrete expired entry. -/
theorem C5_apcu_expired_entry_tombstoned_witness :
    Knife.mapLoad "k" [("k", (⟨some (Apcu.GoVal.str "v"), 3⟩ : Apcu.CacheItem))] =
      some (⟨some (Apcu.GoVal.str "v"), 3⟩ : Apcu.CacheItem) ∧
    (Apcu.CacheItem.source ⟨some (Apcu.GoVal.str "v"), 3⟩ =
      some (Apcu.GoVal.str "v")) ∧
    (3 : Nat) ≠ 0 ∧ (3 : Nat) < 5 ∧
    (Apcu.Load false none (fun _ _ => none) 5
        [("k", (⟨some (Apcu.GoVal.str "v"), 3⟩ : Apcu.CacheItem))] "k" "string" =
      (false, none,
        Knife.mapStore "k" ⟨none, 3⟩
          [("k", (⟨some (Apcu.GoVal.str "v"), 3⟩ : Apcu.CacheItem))]) ∧
     Knife.mapLoad "k"
        (Knife.mapStore "k" ⟨none, 3⟩
          [("k", (⟨some (Apcu.GoVal.str "v"), 3⟩ : Apcu.CacheItem))]) =
        some ⟨none, 3⟩ ∧
     Apcu.Load false none (fun _ _ => none) 0
        (Knife.mapStore "k" ⟨none, 3⟩
          [("k", (⟨some (Apcu.GoVal.str "v"), 3⟩ : Apcu.CacheItem))]) "k" "int" =
      (false, none,
        Knife.mapStore "k" ⟨none, 3⟩
          [("k", (⟨some (Apcu.GoVal.str "v"), 3⟩ : Apcu.CacheItem))])) :=
  ⟨by decide, by decide, by decide, by decide,
   C5_apcu_expired_entry_tombstoned (fun _ _ => none) (fun _ _ => none) 5 0
     [("k", ⟨some (Apcu.GoVal.str "v"), 3⟩)] "k" "string" "int"
     ⟨some (Apcu.GoVal.str "v"), 3⟩ (Apcu.GoVal.str "v")
     (by decide) (by decide) (by decide) (by decide)⟩

/-- C6: on an unexpired entry, `apcu.load` returns `ok = false` with a non-nil
error when the dynamic type of the stored value differs from the target type,
except that a stored string succeeds when it JSON-unmarshals into the target
type or when the target type is string. -/
theorem C6_apcu_load_type_mismatch
    (um : String → String → Option String) (now : Nat) (c : Apcu.Cache)
    (key outTy : String) (item : Apcu.CacheItem) (src : Apcu.GoVal)
    (hit : Knife.mapLoad key c = some item)
    (hsrc : item.source = some src)
    (hfresh : ¬(item.expireAt ≠ 0 ∧ item.expireAt < now)) :
    (src.typeName ≠ outTy →
      (∀ s, src = .str s → um s outTy = none ∧ outTy ≠ "string") →
      (Apcu.load um now c key outTy).1 = false ∧
      ((Apcu.load um now c key outTy).2.1).isSome = true) ∧
    (∀ s, src = .str s →
      ((um s outTy).isSome = true ∨ outTy = "string") →
      (Apcu.load um now c key outTy).1 = true ∧
      (Apcu.load um now c key outTy).2.1 = none) := by
  constructor
  · intro hty hexc
    cases src with
    | str s =>
        obtain ⟨hum, hstr⟩ := hexc s rfl
        simp [Apcu.load, hit, hsrc, hfresh, hum, hstr]
    | rval ty d =>
        have hne : outTy ≠ ty := fun h => hty (by simp [Apcu.GoVal.typeName, h])
        simp [Apcu.load, hit, hsrc, hfresh, hne]
    | other ty d =>
        have hne : outTy ≠ ty := fun h => hty (by simp [Apcu.GoVal.typeName, h])
        simp [Apcu.load, hit, hsrc, hfresh, hne]
  · intro s hs hok
    subst hs
    cases hum : um s outTy with
    | some payload => simp [Apcu.load, hit, hsrc, hfresh, hum]
    | none =>
        have hstr : outTy = "string" := by
          rcases hok with hok | hok
          · rw [hum] at hok; simp at hok
          · exact hok
        subst hstr
        simp [Apcu.load, hit, hsrc, hfresh, hum]

/-- Witness for C6 at a concrete entry holding an int while a string is
requested. -/
theorem C6_apcu_load_type_mismatch_witness :
    Knife.mapLoad "k"
        [("k", (⟨some (Apcu.GoVal.other "int" "1"), 0⟩ : Apcu.CacheItem))] =
      some (⟨some (Apcu.GoVal.other "int" "1"), 0⟩ : Apcu.CacheItem) ∧
    (Apcu.load (fun _ _ => none) 0
        [("k", (⟨some (Apcu.GoVal.other "int" "1"), 0⟩ : Apcu.CacheItem))]
        "k" "string").1 = false ∧
    ((Apcu.load (fun _ _ => none) 0
        [("k", (⟨some (Apcu.GoVal.other "int" "1"), 0⟩ : Apcu.CacheItem))]
        "k" "string").2.1).isSome = true :=
  ⟨by decide,
   ((C6_apcu_load_type_mismatch (fun _ _ => none) 0
       [("k", ⟨some (Apcu.GoVal.other "int" "1"), 0⟩)] "k" "string"
       ⟨some (Apcu.GoVal.other "int" "1"), 0⟩ (Apcu.GoVal.other "int" "1")
       (by decide) (by decide) (by decide)).1 (by decide)
     (fun s hs => by simp at hs)).1,
   ((C6_apcu_load_type_mismatch (fun _ _ => none) 0
       [("k", ⟨some (Apcu.GoVal.other "int" "1"), 0⟩)] "k" "string"
       ⟨some (Apcu.GoVal.other "int" "1"), 0⟩ (Apcu.GoVal.other "int" "1")
       (by decide) (by decide) (by decide)).1 (by decide)
     (fun s hs => by simp at hs)).2⟩

/-- C10: in replay mode with no session id bound, `apcu.Load` and `apcu.Store`
return the session-id resolution error and leave the cache untouched, while
`apcu.Delete` discards that error and deletes the entry under the empty-string
key: every entry under a non-empty key — including the one the caller named —
is left intact. -/
theorem C10_apcu_delete_ignores_sid_error
    (um : String → String → Option String) (now tnow ttl : Nat)
    (c : Apcu.Cache) (key outTy : String) (val : Apcu.GoVal) :
    Apcu.Load true none um now c key outTy =
      (false, some "session id not found", c) ∧
    Apcu.Store true none tnow ttl c key val =
      (some "session id not found", c) ∧
    Apcu.Delete true none c key = Knife.mapDelete "" c ∧
    Knife.mapLoad "" (Apcu.Delete true none c key) = none ∧
    (∀ k, k ≠ "" → Knife.mapLoad k (Apcu.Delete true none c key) =
      Knife.mapLoad k c) := by
  refine ⟨rfl, rfl, rfl, Knife.mapLoad_mapDelete_self _ _, fun k hk => ?_⟩
  exact Knife.mapLoad_mapDelete_ne "" k c (fun h => hk h.symm)

/-- Witness for C10 at a concrete cache holding one entry under a non-empty
key. -/
theorem C10_apcu_delete_ignores_sid_error_witness :
    Apcu.Load true none (fun _ _ => none) 0
        [("k", (⟨some (Apcu.GoVal.str "v"), 0⟩ : Apcu.CacheItem))] "k" "string" =
      (false, some "session id not found",
        [("k", (⟨some (Apcu.GoVal.str "v"), 0⟩ : Apcu.CacheItem))]) ∧
    ("k" : String) ≠ "" ∧
    Knife.mapLoad "k"
        (Apcu.Delete true none
          [("k", (⟨some (Apcu.GoVal.str "v"), 0⟩ : Apcu.CacheItem))] "k") =
      Knife.mapLoad "k"
        [("k", (⟨some (Apcu.GoVal.str "v"), 0⟩ : Apcu.CacheItem))] :=
  ⟨(C10_apcu_delete_ignores_sid_error (fun _ _ => none) 0 0 0
      [("k", ⟨some (Apcu.GoVal.str "v"), 0⟩)] "k" "string"
      (Apcu.GoVal.str "v")).1,
   by decide,
   (C10_apcu_delete_ignores_sid_error (fun _ _ => none) 0 0 0
      [("k", ⟨some (Apcu.GoVal.str "v"), 0⟩)] "k" "string"
      (Apcu.GoVal.str "v")).2.2.2.2 "k" (by decide)⟩

namespace Cast

theorem unhex_hexDigit (n : Nat) : unhex (hexDigit n) = n % 16 := by
  by_cases h : n % 16 < 10
  · simp only [unhex, hexDigit, h, if_true]
    rw [if_pos (by omega)]
    omega
  · simp only [unhex, hexDigit, h, if_false]
    rw [if_neg (by omega)]
    omega

theorem isHexDigit_hexDigit (n : Nat) : isHexDigit (hexDigit n) = true := by
  have hlt : n % 16 < 16 := Nat.mod_lt _ (by omega)
  by_cases h : n % 16 < 10
  · simp only [isHexDigit, hexDigit, h, if_true]
    simp
    omega
  · simp only [isHexDigit, hexDigit, h, if_false]
    simp
    omega

theorem byteOfHex_hexDigit (b : Byte) :
    byteOfHex (hexDigit (b.val / 16)) (hexDigit (b.val % 16)) = b := by
  apply Fin.ext
  simp only [byteOfHex, unhex_hexDigit]
  have hb := b.isLt
  omega

theorem special_escB : special escB = true := by decide

theorem special_sepB : special sepB = true := by decide

theorem escB_ne_sepB : escB ≠ sepB := by decide

theorem hexDigit_ne_sepB (n : Nat) : hexDigit n ≠ sepB := by
  intro h
  have hv := congrArg Fin.val h
  simp only [hexDigit, sepB] at hv
  split at hv <;> omega

theorem sep_not_mem_escByte (b : Byte) : sepB ∉ escByte b := by
  intro hmem
  by_cases h : special b = true
  · simp only [escByte, h, if_true, List.mem_cons,
      List.not_mem_nil, or_false] at hmem
    rcases hmem with h1 | h1 | h1
    · exact escB_ne_sepB h1.symm
    · exact hexDigit_ne_sepB _ h1.symm
    · exact hexDigit_ne_sepB _ h1.symm
  · simp [escByte, h] at hmem
    exact h (hmem ▸ special_sepB)

theorem sep_not_mem_encodeElem (v : List Byte) : sepB ∉ encodeElem v := by
  by_cases hv : v = []
  · subst hv
    decide
  · simp only [encodeElem, hv, if_false]
    intro hmem
    obtain ⟨b, _, hmemb⟩ := List.mem_flatMap.mp hmem
    exact sep_not_mem_escByte b hmemb

theorem escByte_ne_nil (b : Byte) : escByte b ≠ [] := by
  by_cases h : special b = true <;> simp [escByte, h]

theorem encodeElem_ne_nil (v : List Byte) : encodeElem v ≠ [] := by
  cases v with
  | nil => decide
  | cons b rest =>
      simp only [encodeElem, if_neg (List.cons_ne_nil b rest),
        List.flatMap_cons]
      intro h
      exact escByte_ne_nil b (List.append_eq_nil.mp h).1

theorem decodeElemAux_cons_plain (b : Byte) (rest : List Byte)
    (hne : b ≠ escB) (h : special b = false) :
    decodeElemAux (b :: rest) = (decodeElemAux rest).map (fun t => b :: t) := by
  cases rest with
  | nil => simp [decodeElemAux, hne, h]
  | cons x t =>
      cases t with
      | nil => simp [decodeElemAux, hne, h]
      | cons y t2 => simp [decodeElemAux, hne, h]

theorem decodeElemAux_flatMap (v : List Byte) :
    decodeElemAux (v.flatMap escByte) = some v := by
  induction v with
  | nil => rfl
  | cons b rest ih =>
      by_cases h : special b = true
      · simp only [List.flatMap_cons, escByte, h, if_true, List.cons_append,
          List.nil_append]
        simp [decodeElemAux, isHexDigit_hexDigit, ih, byteOfHex_hexDigit]
      · have hne : b ≠ escB := fun he => h (by rw [he]; exact special_escB)
        simp only [List.flatMap_cons, escByte, h, Bool.false_eq_true,
          if_false, List.cons_append, List.nil_append]
        rw [decodeElemAux_cons_plain b _ hne (by simpa using h), ih]
        rfl

theorem flatMap_escByte_ne_emptyMark (v : List Byte) (hv : v ≠ []) :
    v.flatMap escByte ≠ [escB, emptyMarkB] := by
  cases v with
  | nil => simp at hv
  | cons b rest =>
      simp only [List.flatMap_cons]
      by_cases h : special b = true
      · simp only [escByte, h, if_true]
        intro he
        have hlen := congrArg List.length he
        simp at hlen
      · have hne : b ≠ escB := fun he2 => h (by rw [he2]; exact special_escB)
        simp only [escByte, h, if_false, List.cons_append, List.nil_append]
        intro he
        injection he with h1 h2
        exact hne h1

theorem decodeElem_encodeElem (v : List Byte) :
    decodeElem (encodeElem v) = some v := by
  by_cases hv : v = []
  · subst hv
    decide
  · simp only [encodeElem, hv, if_false]
    simp only [decodeElem, if_neg (flatMap_escByte_ne_emptyMark v hv)]
    exact decodeElemAux_flatMap v

theorem splitSep_no_sep (a : List Byte) (h : sepB ∉ a) : splitSep a = [a] := by
  induction a with
  | nil => rfl
  | cons b rest ih =>
      have hb : b ≠ sepB := by
        intro he
        exact h (by rw [← he]; exact List.mem_cons_self b rest)
      have hrest : sepB ∉ rest := fun hm => h (List.mem_cons_of_mem _ hm)
      simp [splitSep, hb, ih hrest]

theorem splitSep_append (a rest : List Byte) (h : sepB ∉ a) :
    splitSep (a ++ sepB :: rest) = a :: splitSep rest := by
  induction a with
  | nil => simp [splitSep]
  | cons b a2 ih =>
      have hb : b ≠ sepB := by
        intro he
        exact h (by rw [← he]; exact List.mem_cons_self b a2)
      have ha2 : sepB ∉ a2 := fun hm => h (List.mem_cons_of_mem _ hm)
      simp only [List.cons_append]
      simp [splitSep, hb, ih ha2]

theorem splitSep_joinSep (v : List (List Byte)) (hm : ∀ x ∈ v, sepB ∉ x)
    (hne : v ≠ []) : splitSep (joinSep v) = v := by
  induction v with
  | nil => simp at hne
  | cons x xs ih =>
      cases xs with
      | nil =>
          simp [joinSep, splitSep_no_sep x (hm x (List.mem_cons_self x []))]
      | cons y ys =>
          have hx : sepB ∉ x := hm x (List.mem_cons_self x (y :: ys))
          have hrec := ih (fun z hz => hm z (List.mem_cons_of_mem _ hz))
            (List.cons_ne_nil y ys)
          rw [show joinSep (x :: y :: ys) = x ++ sepB :: joinSep (y :: ys)
            from rfl]
          rw [splitSep_append x _ hx, hrec]

theorem decodeAll_map (v : List (List Byte)) :
    decodeAll (v.map encodeElem) = some v := by
  induction v with
  | nil => rfl
  | cons x xs ih => simp [decodeAll, decodeElem_encodeElem, ih]

theorem joinSep_map_ne_nil (v : List (List Byte)) (hne : v ≠ []) :
    joinSep (v.map encodeElem) ≠ [] := by
  cases v with
  | nil => simp at hne
  | cons x xs =>
      cases xs with
      | nil => simpa [joinSep] using encodeElem_ne_nil x
      | cons y ys => simp [joinSep]

end Cast

/-- C2: the command-line codec round-trips every list of byte strings — for
every list of values (empty, single-element, or containing NUL and other
non-text bytes), `ParseCommandLine (ToCommandLine v)` succeeds and returns
exactly `v`: same element count, order, and byte content. -/
theorem C2_command_line_round_trip (v : List (List Cast.Byte)) :
    Cast.ParseCommandLine (Cast.ToCommandLine v) = some v := by
  cases v with
  | nil => rfl
  | cons x xs =>
      have hnn := Cast.joinSep_map_ne_nil (x :: xs) (List.cons_ne_nil x xs)
      simp only [Cast.ParseCommandLine, Cast.ToCommandLine, if_neg hnn]
      rw [Cast.splitSep_joinSep ((x :: xs).map Cast.encodeElem)
            (fun z hz => ?_) (by simp)]
      · exact Cast.decodeAll_map _
      · obtain ⟨w, _, hwz⟩ := List.mem_map.mp hz
        subst hwz
        exact Cast.sep_not_mem_encodeElem w
